import Mathlib

/-!
Verification of the yoink forensic artefact collector.

This file gives a shallow embedding, in Lean 4, of the pure/control-flow
core of the repository:

* `parse_stream` from `src/collection/readers/ntfs_reader.rs`
* the `SectorReader` (sector-aligned block reader) from the same file
* the artefact dedup pass and the archive loop of
  `Collecter::compress_collection` (`src/collection/collecter.rs`)
* `Collecter::collect_all` and the add-rule entry points
* `MemoryCollecter::collect_by_rule` (`src/collection/memory/collecter.rs`)
* the Linux `FileCollecter::collect_by_rule` (`src/collection/file/collecter.rs`)

Strings handled byte-wise in Rust are embedded as `List Char` (the inputs
of interest are ASCII, where the byte index and the character index agree).
Machine integers are embedded as `Nat`/`Int` with explicit `2 ^ 64` bounds
where `u64` overflow matters.  Fallible operations return `Except`, and
functions that mutate `&mut self` in Rust return the updated state paired
with the `Except` result, so that the state on failure stays observable.
External effects (the OS filesystem, the regex engine, the minidump writer)
enter as explicit function parameters.
-/

/-! ## parse_stream (src/collection/readers/ntfs_reader.rs lines 17-29) -/

/-- Index of the last `':'` in the character list, as `path.rfind(':')`
computes it (byte index in Rust; character index here). -/
def rfindColon : List Char → Option Nat
  | [] => none
  | c :: cs =>
    match rfindColon cs with
    | some i => some (i + 1)
    | none => if c = ':' then some 0 else none

/-- Embedding of `parse_stream`: split at the last colon unless it sits at
index 1 (the drive-letter separator); `String::replace(":", "")` on the
right half is `List.filter (· ≠ ':')`. -/
def parse_stream (path : List Char) : List Char × List Char :=
  match rfindColon path with
  | some pos =>
    if pos = 1 then
      (path, [])
    else
      (path.take pos, (path.drop pos).filter (fun c => c ≠ ':'))
  | none => (path, [])

/-- Embedding of the second copy, `Collecter::parse_stream`
(src/collection/collecter.rs lines 110-118), which has no index-1 guard. -/
def Collecter.parse_stream (path : List Char) : List Char × List Char :=
  match rfindColon path with
  | some pos => (path.take pos, (path.drop pos).filter (fun c => c ≠ ':'))
  | none => (path, [])

/-! ## Rule data model (src/collection/rules.rs) -/

/-- Embedding of `FileRule` from rules.rs. -/
structure FileRule where
  name : String
  description : String
  platform : String
  rule_type : String
  paths : List String
  recursion_depth : Nat
deriving DecidableEq

/-- Embedding of `MemoryRule` from rules.rs (`pids` are `u32`). -/
structure MemoryRule where
  name : String
  description : String
  platform : String
  rule_type : String
  process_names : List String
  pids : List Nat
deriving DecidableEq

/-- Embedding of `CommandRule` from rules.rs. -/
structure CommandRule where
  name : String
  description : String
  platform : String
  rule_type : String
  binary : String
  arguments : String
deriving DecidableEq

/-- The `CollectionRule` tagged union from rules.rs. -/
inductive CollectionRule where
  | commandRule (r : CommandRule)
  | fileRule (r : FileRule)
  | memoryRule (r : MemoryRule)
deriving DecidableEq

/-- Embedding of `get_rule_name` from rules.rs. -/
def get_rule_name : CollectionRule → String
  | .commandRule r => r.name
  | .fileRule r => r.name
  | .memoryRule r => r.name

/-- Embedding of `get_rule_platform` from rules.rs. -/
def get_rule_platform : CollectionRule → String
  | .commandRule r => r.platform
  | .fileRule r => r.platform
  | .memoryRule r => r.platform

/-! ## Collecter facade (src/collection/collecter.rs) -/

/-- The `Collecter` struct: rules, optional encryption key, artefact list. -/
structure Collecter where
  rules : List CollectionRule
  encryption_key : Option String
  files : List String
deriving DecidableEq

/-- Embedding of `Collecter::add_rule_from_file` (lines 47-57), after the YAML parse:
a duplicate name or a foreign platform is silently dropped (`Ok(())`
without a push), otherwise the rule is appended.  `env::consts::OS` is the
`currentOS` parameter. -/
def Collecter.add_rule_from_file (currentOS : String) (new_rule : CollectionRule)
    (c : Collecter) : Collecter × Except String Unit :=
  if c.rules.any (fun rule => get_rule_name rule == get_rule_name new_rule) then
    (c, .ok ())
  else if get_rule_platform new_rule ≠ currentOS then
    (c, .ok ())
  else
    ({ c with rules := c.rules ++ [new_rule] }, .ok ())

/-- Embedding of `Collecter::collect_all` (lines 165-176): each rule's collection result
is an external effect, passed as `collect_by_rule`; an `Ok` list is
appended to `self.files`, an `Err` is printed and skipped, and the function
always returns `Ok(())`. -/
def Collecter.collect_all (collect_by_rule : CollectionRule → Except String (List String))
    (c : Collecter) : Collecter × Except String Unit :=
  ({ c with
      files := c.rules.foldl (fun files rule =>
        match collect_by_rule rule with
        | .ok fs => files ++ fs
        | .error _ => files) c.files },
    .ok ())

/-! ## The archive (Collecter::compress_collection, lines 355-405) -/

/-- Observable state of the ZIP writer: entries successfully written, and
whether `finish` ran. -/
structure Zip where
  entries : List String
  finished : Bool
deriving DecidableEq

/-- The dedup pass of `compress_collection` (lines 363-365):
`self.files.retain(|file| unique_files.insert(file.clone()))` keeps each
string's first occurrence.  `seen` is the `HashSet`. -/
def dedupFilesAux {α : Type} [DecidableEq α] (seen : List α) : List α → List α
  | [] => []
  | x :: xs => if x ∈ seen then dedupFilesAux seen xs else x :: dedupFilesAux (x :: seen) xs

/-- Entry point of the dedup pass. -/
def dedupFiles {α : Type} [DecidableEq α] (l : List α) : List α :=
  dedupFilesAux [] l

/-- The refinement target for the dedup pass, written from the spec's
words rather than the source: each distinct element exactly once, in order
of first occurrence. -/
def specFirstOccurrenceDedup {α : Type} [DecidableEq α] : List α → List α
  | [] => []
  | x :: xs => x :: (specFirstOccurrenceDedup xs).filter (fun y => y ≠ x)

/-- One `compress_file` call on an opened artefact: on success the entry is
in the archive, on failure the error propagates (the oracle `compressOk`
stands for the metadata read, the entry header write and the body copy). -/
def Collecter.compress_file (compressOk : String → Bool) (zip : Zip)
    (file_path : String) : Except String Zip :=
  if compressOk file_path then
    .ok { zip with entries := zip.entries ++ [file_path] }
  else
    .error "io error"

/-- The archive loop of `compress_collection` (Linux compilation): an
artefact that fails to open (`openOk p = false`) is skipped with
`continue`; an opened artefact goes through `compress_file(...)?`, whose
error returns early. -/
def Collecter.compressLoop (openOk compressOk : String → Bool) :
    List String → Zip → Zip × Except String Unit
  | [], zip => (zip, .ok ())
  | p :: rest, zip =>
    if openOk p then
      match Collecter.compress_file compressOk zip p with
      | .ok zip' => Collecter.compressLoop openOk compressOk rest zip'
      | .error e => (zip, .error e)
    else
      Collecter.compressLoop openOk compressOk rest zip

/-- Embedding of `Collecter::compress_collection`: create the writer, fail
`NothingToCompress` on an empty artefact list, dedup, run the loop, and
call `finish` only when the loop completes. -/
def Collecter.compress_collection (openOk compressOk : String → Bool)
    (c : Collecter) : Collecter × Zip × Except String Unit :=
  let zip : Zip := { entries := [], finished := false }
  if c.files.isEmpty then
    (c, zip, .error "No artefacts to compress")
  else
    let files' := dedupFiles c.files
    match Collecter.compressLoop openOk compressOk files' zip with
    | (zip', Except.ok _) =>
      ({ c with files := files' }, { zip' with finished := true }, Except.ok ())
    | (zip', Except.error e) =>
      ({ c with files := files' }, zip', Except.error e)

/-! ## FileCollecter (src/collection/file/collecter.rs) -/

/-- The `FileCollecter` struct. -/
structure FileCollecter where
  rules : List FileRule
  files : List String
deriving DecidableEq

/-- Embedding of `FileCollecter::add_rule` (lines 39-56). -/
def FileCollecter.add_rule (currentOS : String) (new_rule : CollectionRule)
    (c : FileCollecter) : FileCollecter × Except String Unit :=
  match new_rule with
  | .fileRule rule =>
    if rule.platform ≠ currentOS then
      (c, .error "Rule platform does not match current platform")
    else if c.rules.any (fun existing_rule => existing_rule.name == rule.name) then
      (c, .error "Rule with this name already exists")
    else
      ({ c with rules := c.rules ++ [rule] }, .ok ())
  | _ => (c, .error "Only file rules can be added")

/-- Characters after the last `'/'`, modelling `Path::file_name()
.unwrap_or_default()` for the paths the walker emits. -/
def baseNameAux : List Char → List Char → List Char
  | [], acc => acc
  | c :: cs, acc => if c = '/' then baseNameAux cs [] else baseNameAux cs (acc ++ [c])

/-- Base name of a path string. -/
def baseName (s : String) : String :=
  ⟨baseNameAux s.data []⟩

/-- Embedding of `FileCollecter::search_filesystem` (lines 58-120): the walk rooted at a
fixed path with a fixed depth encounters the non-directory entries
`walkEntries`; each entry is sent once if some pattern compiles
(`regexOk`) and matches (`regexIsMatch`) the full path or the base name,
the first matching pattern short-circuiting the rest. -/
def FileCollecter.search_filesystem (regexOk : String → Bool)
    (regexIsMatch : String → String → Bool) (walkEntries : List String)
    (patterns : List String) : List String :=
  walkEntries.filter (fun path =>
    patterns.any (fun pattern =>
      regexOk pattern && (regexIsMatch pattern path || regexIsMatch pattern (baseName path))))

/-- The Linux `FileCollecter::collect_by_rule` (lines 122-138): for every
entry of `rule.paths`, push the entry itself when it exists as a literal
path, then append a complete walk from `/` matched against all of
`rule.paths`. -/
def FileCollecter.collect_by_rule (pathExists : String → Bool)
    (regexOk : String → Bool) (regexIsMatch : String → String → Bool)
    (walkEntries : List String) (rule : FileRule) : List String :=
  rule.paths.foldl (fun files path =>
    (if pathExists path then files ++ [path] else files)
      ++ FileCollecter.search_filesystem regexOk regexIsMatch walkEntries rule.paths) []

/-! ## MemoryCollecter (src/collection/memory/collecter.rs) -/

/-- A process as enumerated by `get_processes`. -/
structure Process where
  name : String
  pid : Nat
deriving DecidableEq

/-- The `MemoryCollecter` struct. -/
structure MemoryCollecter where
  rules : List MemoryRule
  memory_dumps : List String
deriving DecidableEq

/-- Embedding of `MemoryCollecter::add_rule` (lines 60-77); the error text for a
non-memory variant is the source's own (copy-pasted) message. -/
def MemoryCollecter.add_rule (currentOS : String) (new_rule : CollectionRule)
    (c : MemoryCollecter) : MemoryCollecter × Except String Unit :=
  match new_rule with
  | .memoryRule rule =>
    if rule.platform ≠ currentOS then
      (c, .error "Rule platform does not match current platform")
    else if c.rules.any (fun existing_rule => existing_rule.name == rule.name) then
      (c, .error "Rule with this name already exists")
    else
      ({ c with rules := c.rules ++ [rule] }, .ok ())
  | _ => (c, .error "Only file rules can be added")

/-- ASCII lowercasing of one character (`to_ascii_lowercase`). -/
def asciiLower (c : Char) : Char :=
  if 'A' ≤ c ∧ c ≤ 'Z' then Char.ofNat (c.toNat + 32) else c

/-- ASCII lowercasing of a string. -/
def lowerString (s : String) : String :=
  ⟨s.data.map asciiLower⟩

/-- A dump attempt whose error is printed and swallowed (the `match` with
`Err(e) => println!` in both name-match arms). -/
def dumpTrapped (dump : Process → Except String String) (p : Process)
    (dumps : List String) : List String :=
  match dump p with
  | .ok d => dumps ++ [d]
  | .error _ => dumps

/-- The inner loop of `MemoryCollecter::collect_by_rule` over
`rule.process_names` for one process: a compiling pattern is tested
against the lowercased process name; a non-compiling pattern falls back to
a case-insensitive literal compare; the trailing `continue` statements in
the source are no-ops, so the loop keeps testing the remaining entries. -/
def MemoryCollecter.nameLoop (regexOk : String → Bool)
    (regexIsMatch : String → String → Bool) (dump : Process → Except String String)
    (rule : MemoryRule) (p : Process) (dumps : List String) : List String :=
  rule.process_names.foldl (fun acc process_name =>
    if regexOk process_name then
      if regexIsMatch process_name (lowerString p.name) then
        dumpTrapped dump p acc
      else acc
    else if lowerString p.name == lowerString process_name then
      dumpTrapped dump p acc
    else acc) dumps

/-- The outer process loop of `collect_by_rule` (lines 239-268): after the
name loop, a PID found in `rule.pids` triggers another dump whose error
propagates (`dump_memory(...)?`). -/
def MemoryCollecter.processLoop (regexOk : String → Bool)
    (regexIsMatch : String → String → Bool) (dump : Process → Except String String)
    (rule : MemoryRule) : List Process → List String → Except String (List String)
  | [], dumps => .ok dumps
  | p :: ps, dumps =>
    let dumps := MemoryCollecter.nameLoop regexOk regexIsMatch dump rule p dumps
    if rule.pids.contains p.pid then
      match dump p with
      | .ok d => MemoryCollecter.processLoop regexOk regexIsMatch dump rule ps (dumps ++ [d])
      | .error e => .error e
    else
      MemoryCollecter.processLoop regexOk regexIsMatch dump rule ps dumps

/-- Embedding of `MemoryCollecter::collect_by_rule`, with the regex engine, the
minidump writer and the enumerated process list as parameters. -/
def MemoryCollecter.collect_by_rule (regexOk : String → Bool)
    (regexIsMatch : String → String → Bool) (dump : Process → Except String String)
    (rule : MemoryRule) (processes : List Process) : Except String (List String) :=
  MemoryCollecter.processLoop regexOk regexIsMatch dump rule processes []

/-- Spec-side invariant for C8 on a file-rule list: pairwise-distinct
names and every platform equal to the current OS. -/
def FileRulesInv (os : String) (rules : List FileRule) : Prop :=
  (rules.map FileRule.name).Nodup ∧ ∀ r ∈ rules, r.platform = os

/-- Spec-side invariant for C8 on a memory-rule list. -/
def MemoryRulesInv (os : String) (rules : List MemoryRule) : Prop :=
  (rules.map MemoryRule.name).Nodup ∧ ∀ r ∈ rules, r.platform = os

/-- Spec-side invariant for C8 on the facade's mixed rule list. -/
def CollecterRulesInv (os : String) (rules : List CollectionRule) : Prop :=
  (rules.map get_rule_name).Nodup ∧ ∀ r ∈ rules, get_rule_platform r = os

/-! ## SectorReader (src/collection/readers/ntfs_reader.rs lines 193-316) -/

/-- The wrapped seekable byte source.  `ops` records the position of every
read and seek issued to it, so alignment of the underlying I/O is
observable. -/
structure InnerReader where
  data : List Nat
  pos : Nat
  ops : List Nat
deriving DecidableEq

/-- Embedding of `Read::read_exact` on the inner source: fills the whole `n`-byte
buffer from the current position or fails. -/
def InnerReader.read_exact (r : InnerReader) (n : Nat) : Except String (List Nat × InnerReader) :=
  if r.pos + n ≤ r.data.length then
    .ok ((r.data.drop r.pos).take n, { r with pos := r.pos + n, ops := r.ops ++ [r.pos] })
  else
    .error "failed to fill whole buffer"

/-- Embedding of `Seek::seek(SeekFrom::Start(n))` on the inner source. -/
def InnerReader.seekStart (r : InnerReader) (n : Nat) : InnerReader :=
  { r with pos := n, ops := r.ops ++ [n] }

/-- Embedding of `std::io::SeekFrom` (`end` is a reserved word in Lean). -/
inductive SeekFrom where
  | start (n : Nat)
  | fromEnd (n : Int)
  | current (n : Int)
deriving DecidableEq

/-- The `SectorReader` struct; the scratch `temp_buf` carries no
observable state and is omitted. -/
structure SectorReader where
  inner : InnerReader
  sector_size : Nat
  stream_position : Nat
deriving DecidableEq

/-- Embedding of `usize::is_power_of_two`. -/
def is_power_of_two (n : Nat) : Bool :=
  decide (∃ k, k < n + 1 ∧ 2 ^ k = n)

/-- Embedding of `SectorReader::new` (lines 222-236). -/
def SectorReader.new (inner : InnerReader) (sector_size : Nat) : Except String SectorReader :=
  if is_power_of_two sector_size then
    .ok { inner := inner, sector_size := sector_size, stream_position := 0 }
  else
    .error "sector_size is not a power of two"

/-- Embedding of `align_down_to_sector_size` (lines 238-240). -/
def SectorReader.align_down_to_sector_size (sr : SectorReader) (n : Nat) : Nat :=
  n / sr.sector_size * sr.sector_size

/-- Embedding of `align_up_to_sector_size` (lines 242-244): note this always adds a
full sector, even when `n` is already aligned. -/
def SectorReader.align_up_to_sector_size (sr : SectorReader) (n : Nat) : Nat :=
  sr.align_down_to_sector_size n + sr.sector_size

/-- Embedding of `Read::read` for `SectorReader` (lines 247-271).  `stop` is the
source's `end` (reserved word).  On success the caller buffer receives
`temp_buf[start..stop]` and exactly `bufLen` is reported read. -/
def SectorReader.read (sr : SectorReader) (bufLen : Nat) : SectorReader × Except String (List Nat) :=
  let aligned_position := sr.align_down_to_sector_size sr.stream_position
  let start := sr.stream_position - aligned_position
  let stop := start + bufLen
  let aligned_bytes_to_read := sr.align_up_to_sector_size stop
  match sr.inner.read_exact aligned_bytes_to_read with
  | .ok (bytes, inner') =>
    ({ sr with inner := inner', stream_position := sr.stream_position + bufLen },
      .ok ((bytes.drop start).take bufLen))
  | .error e => (sr, .error e)

/-- Embedding of `u64::MAX`. -/
def u64Max : Nat := 2 ^ 64 - 1

/-- Embedding of `u64::checked_add` (operands below `2 ^ 64`). -/
def checked_add (a b : Nat) : Option Nat :=
  if a + b ≤ u64Max then some (a + b) else none

/-- Embedding of `u64::checked_sub`. -/
def checked_sub (a b : Nat) : Option Nat :=
  if b ≤ a then some (a - b) else none

/-- The tail of `Seek::seek` (lines 299-314): a computed position seeks
the inner stream to the aligned-down position and records the requested
one; `None` is the invalid-input failure, leaving all state unchanged. -/
def SectorReader.seekToNewPos (sr : SectorReader) (new_pos : Option Nat) :
    SectorReader × Except String Nat :=
  match new_pos with
  | some n =>
    let aligned_n := sr.align_down_to_sector_size n
    ({ sr with inner := sr.inner.seekStart aligned_n, stream_position := n }, .ok n)
  | none => (sr, .error "invalid seek to a negative or overflowing position")

/-- Embedding of `Seek::seek` for `SectorReader` (lines 274-316).  `SeekFrom::End`
returns its hard error before any state change; `Current` uses the checked
`u64` arithmetic of the source (`wrapping_neg` of an `i64` coincides with
mathematical negation here, including for `i64::MIN`). -/
def SectorReader.seek (sr : SectorReader) (pos : SeekFrom) : SectorReader × Except String Nat :=
  match pos with
  | .start n => sr.seekToNewPos (some n)
  | .fromEnd _ => (sr, .error "SeekFrom::End is unsupported for SectorReader")
  | .current n =>
    sr.seekToNewPos
      (if 0 ≤ n then checked_add sr.stream_position n.toNat
       else checked_sub sr.stream_position (-n).toNat)

/-! ## Helper lemmas about `rfindColon` -/

theorem rfindColon_eq_none_iff (s : List Char) :
    rfindColon s = none ↔ ':' ∉ s := by
  induction s with
  | nil => simp [rfindColon]
  | cons c cs ih =>
    cases hcs : rfindColon cs with
    | some i =>
      have hmem : ':' ∈ cs := by
        by_contra hm
        rw [ih.mpr hm] at hcs
        exact Option.noConfusion hcs
      simp [rfindColon, hcs, hmem]
    | none =>
      have hmem : ':' ∉ cs := ih.mp hcs
      by_cases hc : c = ':'
      · simp [rfindColon, hcs, hc]
      · simp [rfindColon, hcs, hc, hmem, Ne.symm hc]

theorem rfindColon_drop (s : List Char) (pos : Nat) (h : rfindColon s = some pos) :
    s.drop pos = ':' :: s.drop (pos + 1) ∧ ':' ∉ s.drop (pos + 1) := by
  induction s generalizing pos with
  | nil => simp [rfindColon] at h
  | cons c cs ih =>
    cases hcs : rfindColon cs with
    | some i =>
      simp only [rfindColon, hcs] at h
      injection h with h
      subst h
      simpa using ih i hcs
    | none =>
      by_cases hc : c = ':'
      · simp only [rfindColon, hcs, hc, if_pos rfl] at h
        injection h with h
        subst h
        subst hc
        exact ⟨by simp, (rfindColon_eq_none_iff cs).mp hcs⟩
      · simp [rfindColon, hcs, hc] at h

/-- C2: `parse_stream` splits a path at its last colon into (file path,
stream name with the colon stripped), except that a colon at index 1 is the
drive-letter separator and yields an empty stream name; a path with no
colon is returned unchanged with an empty stream name; together with the
three concrete examples from the spec. -/
theorem parse_stream_spec :
    (∀ s : List Char, ':' ∉ s → parse_stream s = (s, []))
    ∧ (∀ s : List Char, rfindColon s = some 1 → parse_stream s = (s, []))
    ∧ (∀ (s : List Char) (pos : Nat), rfindColon s = some pos → pos ≠ 1 →
        parse_stream s = (s.take pos, s.drop (pos + 1)))
    ∧ parse_stream ("C:\\foo\\bar:ads").toList = (("C:\\foo\\bar").toList, ("ads").toList)
    ∧ parse_stream ("C:\\foo").toList = (("C:\\foo").toList, ([] : List Char))
    ∧ parse_stream ("foo:bar:baz").toList = (("foo:bar").toList, ("baz").toList) := by
  refine ⟨?_, ?_, ?_, by decide, by decide, by decide⟩
  · intro s hs
    rw [parse_stream, (rfindColon_eq_none_iff s).mpr hs]
  · intro s h1
    rw [parse_stream, h1]
    simp
  · intro s pos h hne
    obtain ⟨hdrop, hnotin⟩ := rfindColon_drop s pos h
    have hf : (s.drop pos).filter (fun c => c ≠ ':') = s.drop (pos + 1) := by
      rw [hdrop, List.filter_cons_of_neg (by simp), List.filter_eq_self]
      intro a ha
      simp only [ne_eq, decide_eq_true_eq]
      exact fun hcol => hnotin (hcol ▸ ha)
    simp only [parse_stream, h]
    rw [if_neg hne, hf]

/-- Witness for C2: the general split clause applied at a concrete input. -/
theorem parse_stream_spec_witness :
    parse_stream ("ab:cd").toList = (("ab:cd").toList.take 2, ("ab:cd").toList.drop 3) :=
  parse_stream_spec.2.2.1 ("ab:cd").toList 2 (by decide) (by decide)


/-! ## Lemmas about the dedup pass -/

theorem dedupFilesAux_eq_filter {α : Type} [DecidableEq α] (l : List α) :
    ∀ seen : List α,
      dedupFilesAux seen l
        = (specFirstOccurrenceDedup l).filter (fun y => decide (y ∉ seen)) := by
  induction l with
  | nil => intro seen; rfl
  | cons x xs ih =>
    intro seen
    by_cases hx : x ∈ seen
    · have hd : (decide (x ∉ seen)) = false := by simp [hx]
      simp only [dedupFilesAux, specFirstOccurrenceDedup, List.filter_cons, hx, if_true, hd,
        Bool.false_eq_true, if_false]
      rw [ih seen, List.filter_filter]
      apply List.filter_congr
      intro y hy
      by_cases h1 : y = x
      · subst h1; simp [hx]
      · by_cases h2 : y ∈ seen
        · simp [h2]
        · simp [h1, h2]
    · have hd : (decide (x ∉ seen)) = true := by simp [hx]
      simp only [dedupFilesAux, specFirstOccurrenceDedup, List.filter_cons, hx, if_false, hd,
        if_true]
      rw [ih (x :: seen), List.filter_filter]
      congr 1
      apply List.filter_congr
      intro y hy
      by_cases h1 : y = x
      · subst h1; simp
      · by_cases h2 : y ∈ seen
        · simp [h1, h2]
        · simp [h1, h2, Ne.symm h1]

theorem dedupFiles_eq_spec {α : Type} [DecidableEq α] (l : List α) :
    dedupFiles l = specFirstOccurrenceDedup l := by
  rw [dedupFiles, dedupFilesAux_eq_filter]
  exact List.filter_eq_self.mpr (fun a _ => by simp)

theorem specFirstOccurrenceDedup_nodup {α : Type} [DecidableEq α] (l : List α) :
    (specFirstOccurrenceDedup l).Nodup := by
  induction l with
  | nil => exact List.nodup_nil
  | cons x xs ih =>
    simp only [specFirstOccurrenceDedup]
    refine List.Nodup.cons ?_ (ih.filter _)
    intro hmem
    have := List.of_mem_filter hmem
    simp at this

theorem mem_specFirstOccurrenceDedup {α : Type} [DecidableEq α] (l : List α) (a : α) :
    a ∈ specFirstOccurrenceDedup l ↔ a ∈ l := by
  induction l with
  | nil => simp [specFirstOccurrenceDedup]
  | cons x xs ih =>
    simp only [specFirstOccurrenceDedup, List.mem_cons, List.mem_filter, ih]
    by_cases h : a = x
    · simp [h]
    · simp [h]

/-- C5: on an empty artefact list, `compress_collection` fails with the
"No artefacts to compress" (NothingToCompress) error, writes no ZIP entry,
never runs `finish`, and leaves the artefact list (and the whole collector)
unchanged, so no empty archive is produced. -/
theorem compress_collection_empty_spec (openOk compressOk : String → Bool)
    (rules : List CollectionRule) (key : Option String) :
    Collecter.compress_collection openOk compressOk ⟨rules, key, []⟩
      = (⟨rules, key, []⟩, ⟨[], false⟩, Except.error "No artefacts to compress") := rfl

/-- C6: the dedup pass of `compress_collection` refines the spec's
first-occurrence dedup: the result length is the number of distinct
strings, each string of the input appears exactly once (and nothing else
appears), in first-occurrence order; and on a non-empty list
`compress_collection` really stores that deduplicated list back into the
collector. -/
theorem compress_collection_dedup_spec (l : List String) :
    dedupFiles l = specFirstOccurrenceDedup l
    ∧ (dedupFiles l).length = l.toFinset.card
    ∧ (∀ x : String, x ∈ l → List.count x (dedupFiles l) = 1)
    ∧ (∀ x : String, x ∉ l → List.count x (dedupFiles l) = 0)
    ∧ (∀ (openOk compressOk : String → Bool) (rules : List CollectionRule) (key : Option String),
        l ≠ [] →
        (Collecter.compress_collection openOk compressOk ⟨rules, key, l⟩).1.files = dedupFiles l) := by
  have hnodup : (dedupFiles l).Nodup := by
    rw [dedupFiles_eq_spec]; exact specFirstOccurrenceDedup_nodup l
  have hmem : ∀ x : String, x ∈ dedupFiles l ↔ x ∈ l := by
    intro x; rw [dedupFiles_eq_spec]; exact mem_specFirstOccurrenceDedup l x
  refine ⟨dedupFiles_eq_spec l, ?_, ?_, ?_, ?_⟩
  · have hfin : (dedupFiles l).toFinset = l.toFinset := by
      ext x; simp [List.mem_toFinset, hmem]
    rw [← hfin, List.toFinset_card_of_nodup hnodup]
  · intro x hx
    exact List.count_eq_one_of_mem hnodup ((hmem x).mpr hx)
  · intro x hx
    exact List.count_eq_zero.mpr (fun hc => hx ((hmem x).mp hc))
  · intro openOk compressOk rules key hne
    have hempty : ([] ++ l).isEmpty = false := by
      cases l with
      | nil => exact absurd rfl hne
      | cons a as => rfl
    simp only [List.nil_append] at hempty
    simp only [Collecter.compress_collection, hempty, Bool.false_eq_true, if_false]
    rcases hcl : Collecter.compressLoop openOk compressOk (dedupFiles l) ⟨[], false⟩ with ⟨zip', res⟩
    cases res <;> simp [hcl]

/-- Witness for C6: the non-empty branch instantiated on a concrete list
with a duplicate. -/
theorem compress_collection_dedup_spec_witness :
    (Collecter.compress_collection (fun _ => true) (fun _ => true)
        ⟨[], none, ["a", "b", "a"]⟩).1.files = dedupFiles ["a", "b", "a"] :=
  (compress_collection_dedup_spec ["a", "b", "a"]).2.2.2.2
    (fun _ => true) (fun _ => true) [] none (by decide)

/-! ## C4: error trapping in collect_all / compress_collection -/

/-- C4 counterexample: with artefacts ["a", "b"] where "a" opens but fails
to compress and "b" would compress fine, `compress_collection` returns
early with the error and "b" is never archived — contradicting the claim
that a per-artefact failure never aborts the loop. -/
theorem compress_collection_no_trap_counterexample :
    (Collecter.compress_collection (fun _ => true) (fun s => s == "b")
        ⟨[], none, ["a", "b"]⟩).2.2 = Except.error "io error"
    ∧ "b" ∉ (Collecter.compress_collection (fun _ => true) (fun s => s == "b")
        ⟨[], none, ["a", "b"]⟩).2.1.entries := by
  refine ⟨rfl, ?_⟩
  intro h
  simp [Collecter.compress_collection, Collecter.compressLoop, Collecter.compress_file,
    dedupFiles, dedupFilesAux] at h

/-- C4 amended: per-rule errors in `collect_all` are trapped (it always
returns `Ok`, a failed rule contributes nothing and later rules still
contribute), and in `compress_collection`'s loop a failure to open an
artefact skips to the next one; but an error while compressing an artefact
that did open returns early with the error, skipping the rest. -/
theorem error_trapping_amended :
    (∀ (collect_by_rule : CollectionRule → Except String (List String)) (c : Collecter),
        (Collecter.collect_all collect_by_rule c).2 = Except.ok ())
    ∧ (∀ (collect_by_rule : CollectionRule → Except String (List String))
        (r1 r2 : CollectionRule) (key : Option String) (files fs : List String) (e : String),
        collect_by_rule r1 = Except.error e → collect_by_rule r2 = Except.ok fs →
        (Collecter.collect_all collect_by_rule ⟨[r1, r2], key, files⟩).1.files = files ++ fs)
    ∧ (∀ (openOk compressOk : String → Bool) (p : String) (rest : List String) (zip : Zip),
        openOk p = false →
        Collecter.compressLoop openOk compressOk (p :: rest) zip
          = Collecter.compressLoop openOk compressOk rest zip)
    ∧ (∀ (openOk compressOk : String → Bool) (p : String) (rest : List String) (zip : Zip),
        openOk p = true → compressOk p = false →
        Collecter.compressLoop openOk compressOk (p :: rest) zip
          = (zip, Except.error "io error")) := by
  refine ⟨fun _ _ => rfl, ?_, ?_, ?_⟩
  · intro cbr r1 r2 key files fs e h1 h2
    simp [Collecter.collect_all, h1, h2]
  · intro openOk compressOk p rest zip h
    simp [Collecter.compressLoop, h]
  · intro openOk compressOk p rest zip h1 h2
    simp [Collecter.compressLoop, Collecter.compress_file, h1, h2]

/-- Witness for C4's amended statement: an artefact that fails to open is
skipped and the loop continues. -/
theorem error_trapping_amended_witness :
    Collecter.compressLoop (fun _ => false) (fun _ => true) ["a"] ⟨[], false⟩
      = Collecter.compressLoop (fun _ => false) (fun _ => true) [] ⟨[], false⟩ :=
  error_trapping_amended.2.2.1 (fun _ => false) (fun _ => true) "a" [] ⟨[], false⟩ rfl

/-! ## C3: the memory collector's per-process match loop -/

/-- C3: the trailing `continue` statements in
`MemoryCollecter::collect_by_rule` are no-ops, so a process is dumped once
per matching `process_names` entry plus once more when its PID is listed:
here one process matching the (duplicated) name pattern and the PID list is
dumped three times, not at most once. -/
theorem collect_by_rule_multiple_dumps :
    MemoryCollecter.collect_by_rule (fun _ => true) (fun pat txt => pat == txt)
      (fun p => Except.ok (p.name ++ ".dmp"))
      ⟨"r", "", "linux", "memory", ["a", "a"], [5]⟩ [⟨"a", 5⟩]
      = Except.ok ["a.dmp", "a.dmp", "a.dmp"] := rfl

/-! ## C8: add-time rejection and rule-list invariants -/

theorem FileCollecter.add_rule_preserves_inv_file (os : String) (c : FileCollecter)
    (r : CollectionRule) (h : FileRulesInv os c.rules) :
    FileRulesInv os ((FileCollecter.add_rule os r c).1).rules := by
  cases r with
  | commandRule rule => exact h
  | memoryRule rule => exact h
  | fileRule rule =>
    by_cases hp : rule.platform ≠ os
    · simp only [FileCollecter.add_rule, if_pos hp]
      exact h
    · by_cases hd : c.rules.any (fun er => er.name == rule.name) = true
      · simp only [FileCollecter.add_rule, if_neg hp, hd, if_true]
        exact h
      · simp only [FileCollecter.add_rule, if_neg hp, hd, Bool.false_eq_true, if_false]
        rw [List.any_eq_true] at hd
        push_neg at hd
        refine ⟨?_, ?_⟩
        · rw [List.map_append, List.nodup_append]
          refine ⟨h.1, List.nodup_singleton _, ?_⟩
          intro a ha hb
          rcases List.mem_map.mp ha with ⟨er, her, hname⟩
          simp only [List.map_cons, List.map_nil, List.mem_singleton] at hb
          exact absurd (by rw [hname, hb]; exact beq_self_eq_true _ : (er.name == rule.name) = true) (hd er her)
        · intro r hr
          rcases List.mem_append.mp hr with hr | hr
          · exact h.2 r hr
          · rw [List.mem_singleton.mp hr]
            exact not_not.mp hp

theorem MemoryCollecter.add_rule_preserves_inv_memory (os : String) (c : MemoryCollecter)
    (r : CollectionRule) (h : MemoryRulesInv os c.rules) :
    MemoryRulesInv os ((MemoryCollecter.add_rule os r c).1).rules := by
  cases r with
  | commandRule rule => exact h
  | fileRule rule => exact h
  | memoryRule rule =>
    by_cases hp : rule.platform ≠ os
    · simp only [MemoryCollecter.add_rule, if_pos hp]
      exact h
    · by_cases hd : c.rules.any (fun er => er.name == rule.name) = true
      · simp only [MemoryCollecter.add_rule, if_neg hp, hd, if_true]
        exact h
      · simp only [MemoryCollecter.add_rule, if_neg hp, hd, Bool.false_eq_true, if_false]
        rw [List.any_eq_true] at hd
        push_neg at hd
        refine ⟨?_, ?_⟩
        · rw [List.map_append, List.nodup_append]
          refine ⟨h.1, List.nodup_singleton _, ?_⟩
          intro a ha hb
          rcases List.mem_map.mp ha with ⟨er, her, hname⟩
          simp only [List.map_cons, List.map_nil, List.mem_singleton] at hb
          exact absurd (by rw [hname, hb]; exact beq_self_eq_true _ : (er.name == rule.name) = true) (hd er her)
        · intro r hr
          rcases List.mem_append.mp hr with hr | hr
          · exact h.2 r hr
          · rw [List.mem_singleton.mp hr]
            exact not_not.mp hp

theorem Collecter.add_rule_from_file_preserves (os : String) (c : Collecter)
    (r : CollectionRule) (h : CollecterRulesInv os c.rules) :
    CollecterRulesInv os ((Collecter.add_rule_from_file os r c).1).rules := by
  by_cases hd : c.rules.any (fun rule => get_rule_name rule == get_rule_name r) = true
  · simp only [Collecter.add_rule_from_file, hd, if_true]
    exact h
  · by_cases hp : get_rule_platform r ≠ os
    · simp only [Collecter.add_rule_from_file, hd, Bool.false_eq_true, if_false, if_pos hp]
      exact h
    · simp only [Collecter.add_rule_from_file, hd, Bool.false_eq_true, if_false, if_neg hp]
      rw [List.any_eq_true] at hd
      push_neg at hd
      refine ⟨?_, ?_⟩
      · rw [List.map_append, List.nodup_append]
        refine ⟨h.1, List.nodup_singleton _, ?_⟩
        intro a ha hb
        rcases List.mem_map.mp ha with ⟨er, her, hname⟩
        simp only [List.map_cons, List.map_nil, List.mem_singleton] at hb
        exact absurd (by rw [hname, hb]; exact beq_self_eq_true _ : (get_rule_name er == get_rule_name r) = true) (hd er her)
      · intro x hx
        rcases List.mem_append.mp hx with hx | hx
        · exact h.2 x hx
        · rw [List.mem_singleton.mp hx]
          exact not_not.mp hp

theorem foldl_add_rule_file_preserves (os : String) (adds : List CollectionRule) :
    ∀ c : FileCollecter, FileRulesInv os c.rules →
      FileRulesInv os ((adds.foldl (fun c r => (FileCollecter.add_rule os r c).1) c).rules) := by
  induction adds with
  | nil => intro c h; exact h
  | cons r rs ih =>
    intro c h
    exact ih _ (FileCollecter.add_rule_preserves_inv_file os c r h)

theorem foldl_add_rule_memory_preserves (os : String) (adds : List CollectionRule) :
    ∀ c : MemoryCollecter, MemoryRulesInv os c.rules →
      MemoryRulesInv os ((adds.foldl (fun c r => (MemoryCollecter.add_rule os r c).1) c).rules) := by
  induction adds with
  | nil => intro c h; exact h
  | cons r rs ih =>
    intro c h
    exact ih _ (MemoryCollecter.add_rule_preserves_inv_memory os c r h)

theorem foldl_add_rule_collecter_preserves (os : String) (adds : List CollectionRule) :
    ∀ c : Collecter, CollecterRulesInv os c.rules →
      CollecterRulesInv os ((adds.foldl (fun c r => (Collecter.add_rule_from_file os r c).1) c).rules) := by
  induction adds with
  | nil => intro c h; exact h
  | cons r rs ih =>
    intro c h
    exact ih _ (Collecter.add_rule_from_file_preserves os c r h)

/-- C8: every add-time entry point rejects a duplicate name and a foreign
platform leaving the rule list unchanged (the typed collectors with an
error, the facade silently), and consequently any sequence of adds
preserves pairwise-distinct rule names and platform-equals-current-OS in
every collector. -/
theorem add_rule_rejection_spec :
    (∀ (os : String) (c : FileCollecter) (rule : FileRule), rule.platform ≠ os →
        FileCollecter.add_rule os (.fileRule rule) c
          = (c, Except.error "Rule platform does not match current platform"))
    ∧ (∀ (os : String) (c : FileCollecter) (rule : FileRule), rule.platform = os →
        c.rules.any (fun er => er.name == rule.name) = true →
        FileCollecter.add_rule os (.fileRule rule) c
          = (c, Except.error "Rule with this name already exists"))
    ∧ (∀ (os : String) (c : MemoryCollecter) (rule : MemoryRule), rule.platform ≠ os →
        MemoryCollecter.add_rule os (.memoryRule rule) c
          = (c, Except.error "Rule platform does not match current platform"))
    ∧ (∀ (os : String) (c : MemoryCollecter) (rule : MemoryRule), rule.platform = os →
        c.rules.any (fun er => er.name == rule.name) = true →
        MemoryCollecter.add_rule os (.memoryRule rule) c
          = (c, Except.error "Rule with this name already exists"))
    ∧ (∀ (os : String) (c : Collecter) (r : CollectionRule),
        c.rules.any (fun rule => get_rule_name rule == get_rule_name r) = true →
        Collecter.add_rule_from_file os r c = (c, Except.ok ()))
    ∧ (∀ (os : String) (c : Collecter) (r : CollectionRule), get_rule_platform r ≠ os →
        (Collecter.add_rule_from_file os r c).1 = c)
    ∧ (∀ (os : String) (adds : List CollectionRule) (c : FileCollecter),
        FileRulesInv os c.rules →
        FileRulesInv os ((adds.foldl (fun c r => (FileCollecter.add_rule os r c).1) c).rules))
    ∧ (∀ (os : String) (adds : List CollectionRule) (c : MemoryCollecter),
        MemoryRulesInv os c.rules →
        MemoryRulesInv os ((adds.foldl (fun c r => (MemoryCollecter.add_rule os r c).1) c).rules))
    ∧ (∀ (os : String) (adds : List CollectionRule) (c : Collecter),
        CollecterRulesInv os c.rules →
        CollecterRulesInv os
          ((adds.foldl (fun c r => (Collecter.add_rule_from_file os r c).1) c).rules)) := by
  refine ⟨?_, ?_, ?_, ?_, ?_, ?_, foldl_add_rule_file_preserves, foldl_add_rule_memory_preserves,
    foldl_add_rule_collecter_preserves⟩
  · intro os c rule hp
    simp only [FileCollecter.add_rule, if_pos hp]
  · intro os c rule hp hd
    simp only [FileCollecter.add_rule, hp, ne_eq, not_true_eq_false, if_false, hd, if_true]
  · intro os c rule hp
    simp only [MemoryCollecter.add_rule, if_pos hp]
  · intro os c rule hp hd
    simp only [MemoryCollecter.add_rule, hp, ne_eq, not_true_eq_false, if_false, hd, if_true]
  · intro os c r hd
    simp only [Collecter.add_rule_from_file, hd, if_true]
  · intro os c r hp
    by_cases hd : c.rules.any (fun rule => get_rule_name rule == get_rule_name r) = true
    · simp only [Collecter.add_rule_from_file, hd, if_true]
    · simp only [Collecter.add_rule_from_file, hd, Bool.false_eq_true, if_false, if_pos hp]

/-- Witness for C8: the platform rejection applied at a concrete rule. -/
theorem add_rule_rejection_spec_witness :
    FileCollecter.add_rule "linux"
        (.fileRule ⟨"n", "", "windows", "file", [], 0⟩) ⟨[], []⟩
      = (⟨[], []⟩, Except.error "Rule platform does not match current platform") :=
  add_rule_rejection_spec.1 "linux" ⟨[], []⟩ ⟨"n", "", "windows", "file", [], 0⟩ (by decide)

/-! ## C10: the Linux file collector repeats the walk per paths entry -/

theorem count_foldl_blocks (pe : String → Bool) (S : List String) (f : String) :
    ∀ (ps acc : List String),
      List.count f (ps.foldl (fun files path =>
          (if pe path then files ++ [path] else files) ++ S) acc)
        = List.count f acc + ps.length * List.count f S
          + (if pe f then ps.count f else 0) := by
  intro ps
  induction ps with
  | nil => intro acc; simp
  | cons p ps ih =>
    intro acc
    rw [List.foldl_cons, ih]
    have hsingle : List.count f [p] = if p = f then 1 else 0 := List.count_singleton' f p
    have hpc : List.count f ((if pe p then acc ++ [p] else acc) ++ S)
        = List.count f acc + (if pe p = true ∧ p = f then 1 else 0) + List.count f S := by
      by_cases hp : pe p = true
      · rw [if_pos hp, List.count_append, List.count_append, hsingle]
        by_cases hf : p = f
        · subst hf
          simp [hp]
        · simp [hp, hf]
      · rw [if_neg hp, List.count_append]
        simp [hp]
    rw [hpc]
    by_cases hf : p = f
    · subst hf
      by_cases hp : pe p = true <;>
        simp [hp, List.count_cons, Nat.succ_mul] <;> omega
    · have hbf : (p == f) = false := by simp [hf]
      by_cases hp : pe f = true <;>
        simp [hp, hf, hbf, List.count_cons, Nat.succ_mul] <;> omega

theorem count_search_filesystem (regexOk : String → Bool)
    (regexIsMatch : String → String → Bool) (walkEntries patterns : List String) (f : String) :
    List.count f (FileCollecter.search_filesystem regexOk regexIsMatch walkEntries patterns)
      = if (patterns.any fun pat =>
            regexOk pat && (regexIsMatch pat f || regexIsMatch pat (baseName f))) = true
        then List.count f walkEntries else 0 := by
  rw [FileCollecter.search_filesystem]
  by_cases h : (patterns.any fun pat =>
      regexOk pat && (regexIsMatch pat f || regexIsMatch pat (baseName f))) = true
  · rw [if_pos h]
    exact List.count_filter h
  · rw [if_neg h]
    refine List.count_eq_zero.mpr ?_
    intro hmem
    exact h (List.mem_filter.mp hmem).2

/-- C10: on Linux a rule with k `paths` entries runs the full walk k times
(each walk matching all patterns and emitting a matched entry once), so a
file encountered once by the walk and matched appears k times in the
returned list, plus one more occurrence per paths entry that names it
literally and exists; duplicates are only removed later by
`compress_collection`'s dedup pass. -/
theorem collect_by_rule_linux_walk_multiplicity
    (pathExists regexOk : String → Bool) (regexIsMatch : String → String → Bool)
    (walkEntries : List String) (rule : FileRule) (f : String) :
    List.count f (FileCollecter.collect_by_rule pathExists regexOk regexIsMatch walkEntries rule)
      = rule.paths.length
          * List.count f
              (FileCollecter.search_filesystem regexOk regexIsMatch walkEntries rule.paths)
        + (if pathExists f then rule.paths.count f else 0)
    ∧ List.count f (FileCollecter.search_filesystem regexOk regexIsMatch walkEntries rule.paths)
      = if (rule.paths.any fun pat =>
            regexOk pat && (regexIsMatch pat f || regexIsMatch pat (baseName f))) = true
        then List.count f walkEntries else 0 := by
  constructor
  · rw [FileCollecter.collect_by_rule, count_foldl_blocks]
    simp
  · exact count_search_filesystem regexOk regexIsMatch walkEntries rule.paths f

/-! ## Lemmas about the SectorReader -/

theorem is_power_of_two_iff (n : Nat) : is_power_of_two n = true ↔ ∃ k, n = 2 ^ k := by
  rw [is_power_of_two, decide_eq_true_iff]
  constructor
  · rintro ⟨k, _, hk⟩
    exact ⟨k, hk.symm⟩
  · rintro ⟨k, hk⟩
    refine ⟨k, ?_, hk.symm⟩
    rw [hk]
    exact Nat.lt_succ_of_lt (Nat.lt_two_pow k)

theorem lt_align_down_add_sector (ss x : Nat) (h : 0 < ss) : x < x / ss * ss + ss := by
  have h1 := Nat.div_add_mod x ss
  have h2 := Nat.mod_lt x h
  have h3 : ss * (x / ss) = x / ss * ss := Nat.mul_comm ss (x / ss)
  omega

theorem align_down_le_self (x ss : Nat) : x / ss * ss ≤ x :=
  Nat.div_mul_le_self x ss

/-- A successful aligned read: when the inner position sits on the
aligned-down stream position and the aligned span fits in the source, the
read returns exactly the requested logical bytes. -/
theorem sector_reader_read_ok (data : List Nat) (ss offset len : Nat) (ops : List Nat)
    (hss : 0 < ss)
    (hfit : offset / ss * ss + ((offset - offset / ss * ss + len) / ss * ss + ss)
        ≤ data.length) :
    (SectorReader.mk ⟨data, offset / ss * ss, ops⟩ ss offset).read len
      = (⟨⟨data,
            offset / ss * ss + ((offset - offset / ss * ss + len) / ss * ss + ss),
            ops ++ [offset / ss * ss]⟩, ss, offset + len⟩,
         Except.ok ((data.drop offset).take len)) := by
  have hAle : offset / ss * ss ≤ offset := align_down_le_self offset ss
  have hTgt : offset - offset / ss * ss + len
      < (offset - offset / ss * ss + len) / ss * ss + ss :=
    lt_align_down_add_sector ss _ hss
  simp only [SectorReader.read, SectorReader.align_down_to_sector_size,
    SectorReader.align_up_to_sector_size, InnerReader.read_exact]
  rw [if_pos hfit]
  dsimp only
  have hbytes :
      ((((data.drop (offset / ss * ss)).take
            ((offset - offset / ss * ss + len) / ss * ss + ss)).drop
          (offset - offset / ss * ss)).take len)
        = (data.drop offset).take len := by
    rw [List.drop_take, List.drop_drop]
    have h1 : offset / ss * ss + (offset - offset / ss * ss) = offset := by omega
    rw [h1, List.take_take, inf_eq_left.mpr (by omega : len ≤ _)]
  rw [hbytes]

/-- C1 counterexample: a two-byte source with sector size 2 (length a
multiple of the sector size), offset 0 and length 2 satisfy
`offset + length ≤ N`, yet the read fails, because the read span is always
aligned up by a full extra sector (here to 4 bytes) and runs past the end
of the source — so the claimed unconditional round trip is false. -/
theorem sector_reader_round_trip_counterexample :
    (SectorReader.new ⟨[7, 9], 0, []⟩ 2).map
        (fun sr => (((sr.seek (SeekFrom.start 0)).1).read 2).2)
      = Except.ok (Except.error "failed to fill whole buffer") := rfl

/-- C1 amended: the round trip `seek(Start(offset))` then one `read(len)`
on a source whose length is a multiple of the (power-of-two) sector size
returns exactly `S[offset..offset+len]`, provided the aligned span
`alignDown(offset) + alignUp(offset - alignDown(offset) + len)` also fits
in the source; construction succeeds, and every position at which the
underlying source is read or seeked is a multiple of the sector size. -/
theorem sector_reader_round_trip (data : List Nat) (ss offset len : Nat)
    (hpow : ∃ k, ss = 2 ^ k)
    (hmul : ss ∣ data.length)
    (hlen : offset + len ≤ data.length)
    (hfit : offset / ss * ss + ((offset - offset / ss * ss + len) / ss * ss + ss)
        ≤ data.length) :
    SectorReader.new ⟨data, 0, []⟩ ss = Except.ok ⟨⟨data, 0, []⟩, ss, 0⟩
    ∧ ((SectorReader.mk ⟨data, 0, []⟩ ss 0).seek (SeekFrom.start offset)).2 = Except.ok offset
    ∧ ((((SectorReader.mk ⟨data, 0, []⟩ ss 0).seek (SeekFrom.start offset)).1).read len).2
        = Except.ok ((data.drop offset).take len)
    ∧ ((((SectorReader.mk ⟨data, 0, []⟩ ss 0).seek (SeekFrom.start offset)).1).read
          len).1.inner.ops.all (fun p => p % ss == 0) = true := by
  obtain ⟨k, hk⟩ := hpow
  have hss : 0 < ss := by
    rw [hk]
    exact Nat.pos_pow_of_pos k (by norm_num)
  have hnew : SectorReader.new ⟨data, 0, []⟩ ss = Except.ok ⟨⟨data, 0, []⟩, ss, 0⟩ := by
    rw [SectorReader.new, if_pos ((is_power_of_two_iff ss).mpr ⟨k, hk⟩)]
  have hseek : (SectorReader.mk ⟨data, 0, []⟩ ss 0).seek (SeekFrom.start offset)
      = (⟨⟨data, offset / ss * ss, [offset / ss * ss]⟩, ss, offset⟩, Except.ok offset) := by
    simp [SectorReader.seek, SectorReader.seekToNewPos,
      SectorReader.align_down_to_sector_size, InnerReader.seekStart]
  have hread := sector_reader_read_ok data ss offset len [offset / ss * ss] hss hfit
  refine ⟨hnew, ?_, ?_, ?_⟩
  · rw [hseek]
  · rw [hseek]
    dsimp only
    rw [hread]
  · rw [hseek]
    dsimp only
    rw [hread]
    dsimp only
    simp [Nat.mul_mod_left]

/-- Witness for C1's amended round trip at a concrete aligned-span-fitting
input. -/
theorem sector_reader_round_trip_witness :
    ((((SectorReader.mk ⟨[3, 5, 8, 13], 0, []⟩ 2 0).seek (SeekFrom.start 1)).1).read 2).2
      = Except.ok (([3, 5, 8, 13].drop 1).take 2) :=
  (sector_reader_round_trip [3, 5, 8, 13] 2 1 2 ⟨1, rfl⟩ (by decide) (by decide)
    (by decide)).2.2.1

/-- C7: `SectorReader::seek` rejects every `SeekFrom::End` with a hard
error leaving all state unchanged; `Start(k)` records `k`;
`Current(d)` checked-adds and fails with the invalid-input error on
overflow past `u64::MAX` or on a negative result, leaving state unchanged
on failure; every successful seek moves the underlying source to the
requested position aligned down to a sector boundary. -/
theorem sector_reader_seek_spec :
    (∀ (sr : SectorReader) (n : Int),
        sr.seek (SeekFrom.fromEnd n)
          = (sr, Except.error "SeekFrom::End is unsupported for SectorReader"))
    ∧ (∀ (sr : SectorReader) (k : Nat),
        (sr.seek (SeekFrom.start k)).1.stream_position = k
        ∧ (sr.seek (SeekFrom.start k)).2 = Except.ok k
        ∧ (sr.seek (SeekFrom.start k)).1.inner.pos = k / sr.sector_size * sr.sector_size
        ∧ (sr.seek (SeekFrom.start k)).1.inner.ops
            = sr.inner.ops ++ [k / sr.sector_size * sr.sector_size])
    ∧ (∀ (sr : SectorReader) (d : Int), 0 ≤ d →
        sr.stream_position + d.toNat ≤ u64Max →
        (sr.seek (SeekFrom.current d)).2 = Except.ok (sr.stream_position + d.toNat)
        ∧ (sr.seek (SeekFrom.current d)).1.stream_position = sr.stream_position + d.toNat
        ∧ (sr.seek (SeekFrom.current d)).1.inner.pos
            = (sr.stream_position + d.toNat) / sr.sector_size * sr.sector_size)
    ∧ (∀ (sr : SectorReader) (d : Int), 0 ≤ d →
        u64Max < sr.stream_position + d.toNat →
        sr.seek (SeekFrom.current d)
          = (sr, Except.error "invalid seek to a negative or overflowing position"))
    ∧ (∀ (sr : SectorReader) (d : Int), d < 0 →
        (-d).toNat ≤ sr.stream_position →
        (sr.seek (SeekFrom.current d)).2 = Except.ok (sr.stream_position - (-d).toNat)
        ∧ (sr.seek (SeekFrom.current d)).1.stream_position
            = sr.stream_position - (-d).toNat
        ∧ (sr.seek (SeekFrom.current d)).1.inner.pos
            = (sr.stream_position - (-d).toNat) / sr.sector_size * sr.sector_size)
    ∧ (∀ (sr : SectorReader) (d : Int), d < 0 →
        sr.stream_position < (-d).toNat →
        sr.seek (SeekFrom.current d)
          = (sr, Except.error "invalid seek to a negative or overflowing position")) := by
  refine ⟨fun sr n => rfl, ?_, ?_, ?_, ?_, ?_⟩
  · intro sr k
    refine ⟨rfl, rfl, rfl, rfl⟩
  · intro sr d hd hle
    simp [SectorReader.seek, SectorReader.seekToNewPos, checked_add, hd, hle,
      SectorReader.align_down_to_sector_size, InnerReader.seekStart]
  · intro sr d hd hgt
    simp [SectorReader.seek, SectorReader.seekToNewPos, checked_add, hd,
      Nat.not_le.mpr hgt, SectorReader.align_down_to_sector_size, InnerReader.seekStart]
  · intro sr d hd hle
    have hnn : ¬ (0 ≤ d) := Int.not_le.mpr hd
    simp [SectorReader.seek, SectorReader.seekToNewPos, checked_sub, hnn, hle,
      SectorReader.align_down_to_sector_size, InnerReader.seekStart]
  · intro sr d hd hlt
    have hnn : ¬ (0 ≤ d) := Int.not_le.mpr hd
    simp [SectorReader.seek, SectorReader.seekToNewPos, checked_sub, hnn,
      Nat.not_le.mpr hlt, SectorReader.align_down_to_sector_size, InnerReader.seekStart]

/-- Witness for C7: overflowing `SeekFrom::Current` on a reader already at
`u64::MAX` fails with the invalid-input error and changes nothing. -/
theorem sector_reader_seek_spec_witness :
    SectorReader.seek ⟨⟨[], 0, []⟩, 4096, 2 ^ 64 - 1⟩ (SeekFrom.current 1)
      = (⟨⟨[], 0, []⟩, 4096, 2 ^ 64 - 1⟩,
         Except.error "invalid seek to a negative or overflowing position") :=
  sector_reader_seek_spec.2.2.2.1 ⟨⟨[], 0, []⟩, 4096, 2 ^ 64 - 1⟩ 1 (by decide)
    (by decide)

/-- C9: `SectorReader::read` never returns a short read and never signals
end-of-input: a successful read returns exactly the requested number of
bytes; when the aligned span (aligned down from the logical position,
aligned up past the end of the range) runs past the end of the source the
read fails even if every requested byte exists; and when the requested
range ends exactly on a sector boundary the span includes a full extra
sector. -/
theorem sector_reader_read_exactness :
    (∀ (sr : SectorReader) (bufLen : Nat) (sr' : SectorReader) (bs : List Nat),
        0 < sr.sector_size →
        sr.read bufLen = (sr', Except.ok bs) →
        bs.length = bufLen)
    ∧ (∀ (sr : SectorReader) (bufLen : Nat),
        sr.inner.data.length
            < sr.inner.pos
              + ((sr.stream_position - sr.stream_position / sr.sector_size * sr.sector_size
                    + bufLen) / sr.sector_size * sr.sector_size + sr.sector_size) →
        (sr.read bufLen).2 = Except.error "failed to fill whole buffer"
        ∧ (sr.read bufLen).1 = sr)
    ∧ (∀ (sr : SectorReader) (stop : Nat), sr.sector_size ∣ stop →
        sr.align_up_to_sector_size stop = stop + sr.sector_size) := by
  refine ⟨?_, ?_, ?_⟩
  · intro sr bufLen sr' bs hss heq
    simp only [SectorReader.read, SectorReader.align_down_to_sector_size,
      SectorReader.align_up_to_sector_size, InnerReader.read_exact] at heq
    by_cases hc : sr.inner.pos
        + ((sr.stream_position - sr.stream_position / sr.sector_size * sr.sector_size
            + bufLen) / sr.sector_size * sr.sector_size + sr.sector_size)
        ≤ sr.inner.data.length
    · rw [if_pos hc] at heq
      dsimp only at heq
      obtain ⟨-, h2⟩ := Prod.mk.injEq .. |>.mp heq
      have hbs := (Except.ok.injEq .. |>.mp h2).symm
      subst hbs
      have hTgt := lt_align_down_add_sector sr.sector_size
        (sr.stream_position - sr.stream_position / sr.sector_size * sr.sector_size + bufLen) hss
      simp only [List.length_take, List.length_drop]
      omega
    · rw [if_neg hc] at heq
      dsimp only at heq
      obtain ⟨-, h2⟩ := Prod.mk.injEq .. |>.mp heq
      exact absurd h2 (by simp)
  · intro sr bufLen hlt
    have hc : ¬ (sr.inner.pos
        + ((sr.stream_position - sr.stream_position / sr.sector_size * sr.sector_size
            + bufLen) / sr.sector_size * sr.sector_size + sr.sector_size)
        ≤ sr.inner.data.length) := Nat.not_le.mpr hlt
    simp only [SectorReader.read, SectorReader.align_down_to_sector_size,
      SectorReader.align_up_to_sector_size, InnerReader.read_exact]
    rw [if_neg hc]
    exact ⟨rfl, rfl⟩
  · intro sr stop hdvd
    rw [SectorReader.align_up_to_sector_size, SectorReader.align_down_to_sector_size,
      Nat.div_mul_cancel hdvd]

/-- Witness for C9: a 2-byte source, sector size 2, position 0: reading
the whole source needs an aligned span of 4 bytes and fails with the
fill-buffer error while leaving the reader unchanged. -/
theorem sector_reader_read_exactness_witness :
    ((SectorReader.mk ⟨[7, 9], 0, []⟩ 2 0).read 2).2
        = Except.error "failed to fill whole buffer"
    ∧ ((SectorReader.mk ⟨[7, 9], 0, []⟩ 2 0).read 2).1
        = SectorReader.mk ⟨[7, 9], 0, []⟩ 2 0 :=
  sector_reader_read_exactness.2.1 ⟨⟨[7, 9], 0, []⟩, 2, 0⟩ 2 (by decide)
